import Mathlib

/-!
Verification of the AI-Teacher whiteboard repository against its
natural-language specification.

The development shallowly embeds the JavaScript sources:

* `decodeStream`, `runFrom`, `procLines` — the client stream decoder
  `fetchStreamingResponse` in the streaming `App.js`
  (buffer ++= chunk; parts = buffer.split('\n'); buffer = parts.pop();
  per-line SSE handling with `data: ` prefix, `[DONE]` sentinel and
  `JSON.parse` in a try/catch).
* `jparse` and friends — a model of the platform builtin `JSON.parse`,
  restricted to integer numerals and the basic string escapes; it is
  deliberately conservative (it rejects some inputs `JSON.parse` accepts,
  such as fractional numbers, and accepts nothing `JSON.parse` rejects
  on the shapes exercised here).
* `extractCommands`, `scanM`, `serverStep`, `serverRun` — the server's
  loose recovery mode (`extractCommands` with the regex `/\x7b[^{}]*\x7d/g`,
  the `commandBuffer` accumulation and its wholesale reset) in `server.js`.
* `renderCommand`, `renderAll`, `equationRenderer`, `mixedAux` — the
  client command interpreter (the `switch (command.type)` in the streaming
  `App.js`), with the external typesetting call abstracted as an oracle
  `tex : List Char → TexOut` and recursion bounded by explicit fuel.
* `detectLatex` — modelled from the spec (the imported implementation is
  not part of the sources).
* `appStep`, `appRun` — the React state updates performed by
  `handleGenerate` in `front/src/App.js`, driven by an explicit event
  trace so that interleavings of two generation requests can be analysed.

Strings are modelled as `List Char`.
-/

/-- Json values as produced by `JSON.parse`; numbers are modelled as
integers (every numeric literal in the claims is an integer). -/
inductive Json where
  | null : Json
  | bool (b : Bool) : Json
  | num (n : Int) : Json
  | str (s : List Char) : Json
  | arr (items : List Json) : Json
  | obj (fields : List (List Char × Json)) : Json

/-- Convert a Lean string literal to the `List Char` text model. -/
def toCL (s : String) : List Char := s.toList

/-- Whitespace skipped by `JSON.parse` between tokens. -/
def isWsJ (c : Char) : Bool := c = ' ' || c = '\t' || c = '\n' || c = '\r'

/-- Drop leading JSON whitespace. -/
def skipWs : List Char → List Char
  | [] => []
  | c :: cs => if isWsJ c then skipWs cs else c :: cs

/-- Decimal digit test. -/
def isDig (c : Char) : Bool := '0' ≤ c && c ≤ '9'

/-- Accumulate a run of decimal digits. -/
def pDigits : Nat → List Char → Nat × List Char
  | acc, [] => (acc, [])
  | acc, c :: cs =>
    if isDig c then pDigits (acc * 10 + (c.toNat - 48)) cs else (acc, c :: cs)

/-- Parse an unsigned JSON integer (no leading zeros, as in `JSON.parse`). -/
def pUInt : List Char → Option (Nat × List Char)
  | [] => none
  | '0' :: cs =>
    match cs with
    | c :: _ => if isDig c then none else some (0, cs)
    | [] => some (0, [])
  | c :: cs => if isDig c then some (pDigits (c.toNat - 48) cs) else none

/-- Parse a signed JSON integer literal. -/
def pInt : List Char → Option (Int × List Char)
  | '-' :: cs =>
    match pUInt cs with
    | some (n, r) => some (-(n : Int), r)
    | none => none
  | s =>
    match pUInt s with
    | some (n, r) => some ((n : Int), r)
    | none => none

/-- Parse the body of a JSON string after the opening quote, returning the
content and the input after the closing quote.  Control characters are
rejected and the basic escapes are translated, as in `JSON.parse`. -/
def pChars : List Char → Option (List Char × List Char)
  | [] => none
  | '"' :: cs => some ([], cs)
  | '\\' :: cs =>
    match cs with
    | '"' :: r => (pChars r).map (fun p => ('"' :: p.1, p.2))
    | '\\' :: r => (pChars r).map (fun p => ('\\' :: p.1, p.2))
    | '/' :: r => (pChars r).map (fun p => ('/' :: p.1, p.2))
    | 'b' :: r => (pChars r).map (fun p => ('\x08' :: p.1, p.2))
    | 'f' :: r => (pChars r).map (fun p => ('\x0c' :: p.1, p.2))
    | 'n' :: r => (pChars r).map (fun p => ('\n' :: p.1, p.2))
    | 'r' :: r => (pChars r).map (fun p => ('\r' :: p.1, p.2))
    | 't' :: r => (pChars r).map (fun p => ('\t' :: p.1, p.2))
    | _ => none
  | c :: cs => if c.toNat < 32 then none else (pChars cs).map (fun p => (c :: p.1, p.2))

mutual

/-- Parse one JSON value; the fuel bounds the nesting depth and is
decremented on every recursive descent. -/
def pVal : Nat → List Char → Option (Json × List Char)
  | 0, _ => none
  | f + 1, s =>
    match skipWs s with
    | [] => none
    | '"' :: cs =>
      match pChars cs with
      | some (str, r) => some (.str str, r)
      | none => none
    | '\x7b' :: cs =>
      match skipWs cs with
      | '\x7d' :: r => some (.obj [], r)
      | _ =>
        match pMembers f (skipWs cs) with
        | some (ms, r) => some (.obj ms, r)
        | none => none
    | '[' :: cs =>
      match skipWs cs with
      | ']' :: r => some (.arr [], r)
      | _ =>
        match pItems f (skipWs cs) with
        | some (its, r) => some (.arr its, r)
        | none => none
    | 't' :: 'r' :: 'u' :: 'e' :: r => some (.bool true, r)
    | 'f' :: 'a' :: 'l' :: 's' :: 'e' :: r => some (.bool false, r)
    | 'n' :: 'u' :: 'l' :: 'l' :: r => some (.null, r)
    | s' =>
      match pInt s' with
      | some (n, r) => some (.num n, r)
      | none => none

/-- Parse the members of a JSON object after the opening brace. -/
def pMembers : Nat → List Char → Option (List (List Char × Json) × List Char)
  | 0, _ => none
  | f + 1, s =>
    match s with
    | '"' :: cs =>
      match pChars cs with
      | some (k, r) =>
        match skipWs r with
        | ':' :: r2 =>
          match pVal f r2 with
          | some (v, r3) =>
            match skipWs r3 with
            | ',' :: r4 =>
              match pMembers f (skipWs r4) with
              | some (ms, r5) => some ((k, v) :: ms, r5)
              | none => none
            | '\x7d' :: r4 => some ([(k, v)], r4)
            | _ => none
          | none => none
        | _ => none
      | none => none
    | _ => none

/-- Parse the items of a JSON array after the opening bracket. -/
def pItems : Nat → List Char → Option (List Json × List Char)
  | 0, _ => none
  | f + 1, s =>
    match pVal f s with
    | some (v, r) =>
      match skipWs r with
      | ',' :: r2 =>
        match pItems f (skipWs r2) with
        | some (its, r3) => some (v :: its, r3)
        | none => none
      | ']' :: r2 => some ([v], r2)
      | _ => none
    | none => none

end

/-- Model of `JSON.parse`: parse one value and require only trailing
whitespace; `none` models a thrown `SyntaxError`. -/
def jparse (s : List Char) : Option Json :=
  match pVal (s.length + 1) s with
  | some (j, r) => if skipWs r = [] then some j else none
  | none => none

/-! ## The client stream decoder (`fetchStreamingResponse`)

The source keeps a text `buffer`, appends each arriving chunk, splits on
`'\n'`, pops the final (possibly incomplete) fragment back into the
buffer and handles every complete line:  blank lines are skipped, lines
without the `data: ` prefix are skipped, the `[DONE]` payload breaks out
of the per-chunk loop, and any other payload is passed to `JSON.parse`
inside a try/catch, a successful parse being emitted via `onCommand`. -/

/-- Model of JavaScript `s.split('\n')` (always returns at least one
fragment; a trailing newline yields a trailing empty fragment). -/
def jsSplitNl : List Char → List (List Char)
  | [] => [[]]
  | c :: cs =>
    if c = '\n' then [] :: jsSplitNl cs
    else
      match jsSplitNl cs with
      | [] => [[c]]
      | l :: ls => (c :: l) :: ls

/-- Split a text into its complete lines and the trailing fragment after
the last newline; used to reason about `jsSplitNl` followed by `pop()`. -/
def splitInc : List Char → List (List Char) × List Char
  | [] => ([], [])
  | c :: cs =>
    if c = '\n' then ([] :: (splitInc cs).1, (splitInc cs).2)
    else
      match splitInc cs with
      | ([], r) => ([], c :: r)
      | (l :: ls, r) => ((c :: l) :: ls, r)

/-- Combination of the incremental splits of two concatenated texts. -/
def mergeSplit (a b : List (List Char) × List Char) : List (List Char) × List Char :=
  match b.1 with
  | [] => (a.1, a.2 ++ b.2)
  | l :: ls => (a.1 ++ (a.2 ++ l) :: ls, b.2)

/-- Whitespace characters removed by JavaScript `trim()` (the ASCII ones;
no claim exercises the exotic Unicode space characters). -/
def isWsJs (c : Char) : Bool :=
  c = ' ' || c = '\t' || c = '\n' || c = '\r' || c = '\x0b' || c = '\x0c'

/-- `part.trim()` is falsy exactly when the line is all whitespace. -/
def isBlank (l : List Char) : Bool := l.all isWsJs

/-- The SSE frame header `data: ` (six characters). -/
def dataHdr : List Char := ['d', 'a', 't', 'a', ':', ' ']

/-- `part.startsWith('data: ')`. -/
def hasDataHdr : List Char → Bool
  | 'd' :: 'a' :: 't' :: 'a' :: ':' :: ' ' :: _ => true
  | _ => false

/-- The stream termination sentinel `[DONE]`. -/
def doneTok : List Char := toCL ("[DONE]")

/-- Commands emitted for one complete line, when no sentinel interferes:
skip blank lines and lines without the frame prefix, otherwise parse the
payload after the six-character prefix, emitting on success only. -/
def lineOut (l : List Char) : List Json :=
  if isBlank l then []
  else if hasDataHdr l then
    if l.drop 6 = doneTok then []
    else (jparse (l.drop 6)).toList
  else []

/-- Concatenation of the per-line emissions of a list of lines. -/
def linesOut : List (List Char) → List Json
  | [] => []
  | l :: ls => lineOut l ++ linesOut ls

/-- Commands emitted by the per-chunk `for (const part of parts)` loop:
identical to `linesOut` except that the `[DONE]` sentinel `break`s, which
abandons the remaining lines of the same chunk only. -/
def procLines : List (List Char) → List Json
  | [] => []
  | l :: ls =>
    if isBlank l then procLines ls
    else if hasDataHdr l then
      if l.drop 6 = doneTok then []
      else
        match jparse (l.drop 6) with
        | some j => j :: procLines ls
        | none => procLines ls
    else procLines ls

/-- The `while (true)` read loop of `fetchStreamingResponse`: append the
chunk to the buffer, split on newlines, pop the trailing fragment back
into the buffer, process the complete lines, continue with the next
chunk; the trailing fragment is dropped when the stream ends. -/
def runFrom : List Char → List (List Char) → List Json
  | _, [] => []
  | buf, c :: cs =>
    procLines ((jsSplitNl (buf ++ c)).dropLast)
      ++ runFrom ((jsSplitNl (buf ++ c)).getLastD []) cs

/-- Commands emitted by the client stream decoder for a given arrival
partition of the response text into chunks. -/
def decodeStream (chunks : List (List Char)) : List Json := runFrom [] chunks

/-- Concatenation of a list of texts (the full response text of a
chunk partition). -/
def concatAll : List (List Char) → List Char
  | [] => []
  | c :: cs => c ++ concatAll cs

/-- The response text consisting of one well-formed SSE frame per
payload, each line terminated by a newline. -/
def framesText : List (List Char) → List Char
  | [] => []
  | p :: ps => dataHdr ++ p ++ '\n' :: framesText ps

/-- A complete line on which the decoder takes the sentinel branch. -/
def isDoneLine (l : List Char) : Prop :=
  isBlank l = false ∧ hasDataHdr l = true ∧ l.drop 6 = doneTok

/-- Emission of one frame per payload, used to state what the decoder
produces on a frame-per-line response text. -/
def optJoin : List (List Char) → List Json
  | [] => []
  | p :: ps => (jparse p).toList ++ optJoin ps

/-! ## The server's loose recovery mode (`extractCommands` in `server.js`)

`extractCommands` collects every match of the global regex
`/\x7b[^{}]*\x7d/g` over the accumulated text, parses each match and keeps
those whose `type` property is truthy.  The streaming endpoint appends
each text delta to `commandBuffer`, runs `extractCommands`, and resets
the whole buffer to the empty string whenever at least one command was
found. -/

/-- Longest leading run of characters that are not braces, together with
the rest of the input (the character class `[^{}]*`). -/
def spanNB : List Char → List Char × List Char
  | [] => ([], [])
  | c :: cs =>
    if c = '\x7b' ∨ c = '\x7d' then ([], c :: cs)
    else
      match spanNB cs with
      | (r, rest) => (c :: r, rest)

/-- Left-to-right global scan of the regex `/\x7b[^{}]*\x7d/g`: at an
opening brace, greedily take the brace-free run; the match succeeds
exactly when the next character is a closing brace; on failure the start
position advances by one.  After a successful match the engine resumes
after the match; resuming at the match interior instead is equivalent,
because the interior is brace-free and the closing brace opens nothing,
and keeps the recursion structural.  The equivalence with the
position-by-position specification `specMatches` is proved below. -/
def scanM : List Char → List (List Char)
  | [] => []
  | c :: rest =>
    if c = '\x7b' then
      match spanNB rest with
      | (run, rBr) =>
        match rBr with
        | b :: _ =>
          if b = '\x7d' then ('\x7b' :: run ++ ['\x7d']) :: scanM rest else scanM rest
        | [] => scanM rest
    else scanM rest

/-- Field lookup on a parsed JSON object (`command.type` etc.); with
duplicate keys `JSON.parse` keeps the last occurrence, hence the
reversal. -/
def jGet (j : Json) (k : List Char) : Option Json :=
  match j with
  | .obj fields => (fields.reverse.find? (fun p => p.1 = k)).map (fun p => p.2)
  | _ => none

/-- JavaScript truthiness of a property access result (`undefined`,
`null`, `false`, `0` and the empty string are falsy). -/
def jTruthy : Option Json → Bool
  | none => false
  | some .null => false
  | some (.bool b) => b
  | some (.num n) => !(n = 0)
  | some (.str s) => !(s = [])
  | some (.arr _) => true
  | some (.obj _) => true

/-- Handling of one regex match in `extractCommands`: parse it, and keep
the command if its `type` property is truthy. -/
def cmdOf (m : List Char) : Option Json :=
  match jparse m with
  | some c => if jTruthy (jGet c (toCL ("type"))) then some c else none
  | none => none

/-- The server helper `extractCommands(text)`. -/
def extractCommands (text : List Char) : List Json :=
  (scanM text).filterMap cmdOf

/-- One streaming step of the `/api/gemini` handler around
`commandBuffer`: append the extracted model text, run `extractCommands`,
emit and clear the whole buffer when anything was found. -/
def serverStep (commandBuffer text : List Char) : List Json × List Char :=
  let cb := commandBuffer ++ text
  let commands := extractCommands cb
  if commands.length > 0 then (commands, []) else ([], cb)

/-- Commands written by the server across a sequence of model text
deltas. -/
def serverRun : List Char → List (List Char) → List Json
  | _, [] => []
  | cb, t :: ts => (serverStep cb t).1 ++ serverRun (serverStep cb t).2 ts

/-- Specification-side description of one candidate at position `i`: the
bracket-balanced substring with brace-free interior starting at `i`, when
it exists (the first brace after the opener must be a closer). -/
def nnAt (s : List Char) (i : Nat) : Option (List Char) :=
  match s.drop i with
  | [] => none
  | c :: r =>
    if c = '\x7b' then
      match spanNB r with
      | (run, rBr) =>
        match rBr with
        | b :: _ => if b = '\x7d' then some ('\x7b' :: run ++ ['\x7d']) else none
        | [] => none
    else none

/-- Specification-side list of all bracket-balanced, brace-free-interior
substrings of `s` in left-to-right order of occurrence. -/
def specMatches (s : List Char) : List (List Char) :=
  (List.range s.length).filterMap (nnAt s)

/-! ## The command interpreter (`renderCommand` in the streaming `App.js`)

The interpreter dispatches on `command.type` and produces canvas
drawable descriptors.  The external typesetting call
(`renderLatexToCanvas`, resolved asynchronously inside
`EquationRenderer`) is abstracted as an oracle giving, per markup
string, the state its promise has reached: still pending, rejected, or
resolved with image data.  Recursion into `group` children is bounded by
explicit fuel; every theorem supplies fuel exceeding the nesting depth
of its input. -/

/-- Result of the asynchronous typesetting call for one markup string. -/
inductive TexOut where
  | pending : TexOut
  | failed : TexOut
  | ok (x y width height : Int) : TexOut

/-- Canvas drawable descriptors produced by the interpreter. -/
inductive Drawable where
  | text (x y : Int) (content : List Char) (fontSize : Int) (italic : Bool) : Drawable
  | line (points : List Int) (strokeWidth : Int) : Drawable
  | rect (x y width height : Int) : Drawable
  | image (x y width height : Int) : Drawable
  | group (x y : Int) (children : List Drawable) : Drawable

/-- A math span found inside plain text: half-open offset range into the
source string and the enclosed markup (`stop` is the source's `end`). -/
structure MathSpan where
  start : Nat
  stop : Nat
  latex : List Char
deriving DecidableEq

/-- Run of characters before the next `$` delimiter, with the input
after that delimiter; `none` when no delimiter follows. -/
def findClose : List Char → Option (List Char × List Char)
  | [] => none
  | c :: r =>
    if c = '$' then some ([], r)
    else (findClose r).map (fun p => (c :: p.1, p.2))

/-- Modelled from the spec: `detectLatex` is imported from
`utils/latexRenderer`, whose source in the repository does not define it;
per the spec the detector returns an ordered-by-position, non-overlapping
list of MathSpan records for every substring delimited by a matched pair
of inline-math `$` markers, an unmatched opener producing no span. -/
def detectAux : Nat → Nat → List Char → List MathSpan
  | 0, _, _ => []
  | fuel + 1, i, s =>
    match s with
    | [] => []
    | c :: r =>
      if c = '$' then
        match findClose r with
        | some (content, rest) =>
          ⟨i, i + content.length + 2, content⟩ :: detectAux fuel (i + content.length + 2) rest
        | none => []
      else detectAux fuel (i + 1) r

/-- Math Span Detector entry point; the fuel bounds the scan length and
`length + 1` always suffices, each step consuming at least one
character. -/
def detectLatex (s : List Char) : List MathSpan := detectAux (s.length + 1) 0 s

/-- Access `command.k` as the JSON value behind a property, then as a
number; an absent or non-numeric attribute is rendered by Konva at the
default position `0`. -/
def jNumAt (c : Json) (k : List Char) : Int :=
  match jGet c k with
  | some (.num n) => n
  | _ => 0

/-- The JavaScript idiom `command.k || d` on a numeric attribute: a
missing or zero (falsy) value yields the default. -/
def jNumOr (c : Json) (k : List Char) (d : Int) : Int :=
  match jGet c k with
  | some (.num n) => if n = 0 then d else n
  | _ => d

/-- Access `command.k` as a string property. -/
def jStrOpt (c : Json) (k : List Char) : Option (List Char) :=
  match jGet c k with
  | some (.str s) => some s
  | _ => none

/-- The JavaScript idiom `a || b` on two string properties; a doubly
absent value is modelled as the empty string. -/
def jsOr (a b : Option (List Char)) : List Char :=
  match a with
  | some s =>
    if s = [] then (match b with | some t => t | none => []) else s
  | none => match b with | some t => t | none => []

/-- Access `command.points` as a flat list of numbers. -/
def jNumList (c : Json) (k : List Char) : List Int :=
  match jGet c k with
  | some (.arr its) =>
    its.filterMap (fun j => match j with | .num n => some n | _ => none)
  | _ => []

/-- The `switch (command.type)` scrutinee: the `type` property when it is
a string (a non-string value matches no case label). -/
def typeTag (c : Json) : Option (List Char) :=
  match jGet c (toCL ("type")) with
  | some (.str t) => some t
  | _ => none

/-- The `EquationRenderer` component: on a rejected typeset promise it
falls back to the raw markup as italic plain text; while pending it shows
the transient placeholder; on success it shows the produced image. -/
def equationRenderer (tex : List Char → TexOut) (latex : List Char) (x y fontSize : Int) : Drawable :=
  match tex latex with
  | .failed => .text x y latex fontSize true
  | .pending => .text x y (toCL ("Rendering equation...")) fontSize false
  | .ok ix iy iw ih => .image ix iy iw ih

/-- JavaScript `text.substring(i, j)` on the text model. -/
def sliceCL (text : List Char) (i j : Nat) : List Char :=
  (text.drop i).take (j - i)

/-- The parts layout of `MixedTextRenderer`: alternating plain and math
segments in position order, laid out left-to-right from the command's
`x`, advancing by the source's approximate width per segment
(`length * fontSize * 0.6` for text, here in integer arithmetic, and a
flat `100` per math segment). -/
def mixedAux (tex : List Char → TexOut) (text : List Char) (y fontSize : Int) :
    Nat → Int → List MathSpan → List Drawable
  | lastIndex, curX, [] =>
    if lastIndex < text.length ∧ ¬(isBlank (text.drop lastIndex) = true) then
      [.text curX y (text.drop lastIndex) fontSize false]
    else []
  | lastIndex, curX, m :: ms =>
    let tp := sliceCL text lastIndex m.start
    let pushPre := lastIndex < m.start ∧ ¬(isBlank tp = true)
    let acc := if pushPre then [Drawable.text curX y tp fontSize false] else []
    let curX1 := if pushPre then curX + (tp.length : Int) * fontSize * 6 / 10 else curX
    acc ++ equationRenderer tex m.latex curX1 y fontSize
      :: mixedAux tex text y fontSize m.stop (curX1 + 100) ms

/-- The `renderCommand` dispatch of the streaming `App.js`, with fuel
bounding the recursion into `group` children; `none` models returning
`null` (no drawable). -/
def renderCommand (tex : List Char → TexOut) : Nat → Json → Option Drawable
  | 0, _ => none
  | fuel + 1, command =>
    match typeTag command with
    | none => none
    | some t =>
      if t = toCL ("text") then
        let txt := (jStrOpt command (toCL ("text"))).getD []
        let ms := detectLatex txt
        let x := jNumOr command (toCL ("x")) 20
        let y := jNumAt command (toCL ("y"))
        let fs := jNumOr command (toCL ("fontSize")) 16
        if ms = [] then some (.text x y txt fs false)
        else some (.group 0 0 (mixedAux tex txt y fs 0 x ms))
      else if t = toCL ("equation") then
        some (equationRenderer tex
          (jsOr (jStrOpt command (toCL ("latex"))) (jStrOpt command (toCL ("text"))))
          (jNumAt command (toCL ("x"))) (jNumAt command (toCL ("y")))
          (jNumOr command (toCL ("fontSize")) 18))
      else if t = toCL ("line") then
        some (.line (jNumList command (toCL ("points"))) (jNumOr command (toCL ("strokeWidth")) 2))
      else if t = toCL ("rect") then
        some (.rect (jNumAt command (toCL ("x"))) (jNumAt command (toCL ("y")))
          (jNumAt command (toCL ("width"))) (jNumAt command (toCL ("height"))))
      else if t = toCL ("group") then
        some (.group (jNumAt command (toCL ("x"))) (jNumAt command (toCL ("y")))
          (match jGet command (toCL ("children")) with
           | some (.arr items) => items.filterMap (renderCommand tex fuel)
           | _ => []))
      else none

/-- The canvas layer `commands.map(renderCommand)`: commands producing
`null` contribute no drawable. -/
def renderAll (tex : List Char → TexOut) (fuel : Nat) (cmds : List Json) : List Drawable :=
  cmds.filterMap (renderCommand tex fuel)

/-- One of the five case labels of the dispatch. -/
def recognizedType (t : List Char) : Bool :=
  decide (t = toCL ("text")) || decide (t = toCL ("equation")) ||
  decide (t = toCL ("line")) || decide (t = toCL ("rect")) || decide (t = toCL ("group"))

mutual

/-- Effective absolute rectangles of a drawable under the presentation
layer's composition model: a group's children are rendered with
coordinates offset by the group's own position, recursively. -/
def absRects : Int → Int → Drawable → List (Int × Int × Int × Int)
  | dx, dy, .rect x y w h => [(dx + x, dy + y, w, h)]
  | dx, dy, .group x y cs => absRectsList (dx + x) (dy + y) cs
  | _, _, .text _ _ _ _ _ => []
  | _, _, .line _ _ => []
  | _, _, .image _ _ _ _ => []

/-- Effective absolute rectangles of a list of sibling drawables. -/
def absRectsList : Int → Int → List Drawable → List (Int × Int × Int × Int)
  | _, _, [] => []
  | dx, dy, d :: ds => absRects dx dy d ++ absRectsList dx dy ds

end

/-! ## The non-streaming front-end request handler (`front/src/App.js`)

`handleGenerate` resets both state lists, then walks the fetched
commands with an awaited delay per step, appending equations and other
commands to their lists.  Nothing guards against a previous, abandoned
invocation whose loop is still running: its pending steps keep applying
to the current state.  The model replays the `setState` calls of one or
more interleaved invocations as an explicit event trace. -/

/-- An equation entry as built by `handleGenerate` (`id` is `eq-${i}`,
`latex` is `command.latex || command.text`, `fontSize` defaults to 20). -/
structure EqEntry where
  id : List Char
  latex : List Char
  x : Int
  y : Int
  fontSize : Int
deriving DecidableEq

/-- The two state lists of the component. -/
structure CanvasState where
  commands : List Json
  equations : List EqEntry

/-- Construction of the equation entry for loop index `i`. -/
def eqEntryOf (i : Nat) (c : Json) : EqEntry :=
  { id := toCL ("eq-") ++ Nat.toDigits 10 i
    latex := jsOr (jStrOpt c (toCL ("latex"))) (jStrOpt c (toCL ("text")))
    x := jNumAt c (toCL ("x"))
    y := jNumAt c (toCL ("y"))
    fontSize := jNumOr c (toCL ("fontSize")) 20 }

/-- Observable state updates performed by `handleGenerate`: starting a
request resets both lists; one resumed loop iteration appends the
command to the matching list.  There is no request identity anywhere in
the source, so a delivery is applied the same way whichever invocation
issued it. -/
inductive GenEvent where
  | newPrompt : GenEvent
  | deliver (i : Nat) (c : Json) : GenEvent

/-- Application of one event to the component state. -/
def appStep (s : CanvasState) : GenEvent → CanvasState
  | .newPrompt => { commands := [], equations := [] }
  | .deliver i c =>
    if typeTag c = some (toCL ("equation")) then
      { s with equations := s.equations ++ [eqEntryOf i c] }
    else
      { s with commands := s.commands ++ [c] }

/-- Replay of an event trace from the initial empty state. -/
def appRun (es : List GenEvent) : CanvasState :=
  es.foldl appStep { commands := [], equations := [] }

/-- A parsed `rect` command object. -/
def rectJson (x y w h : Int) : Json :=
  Json.obj [(toCL ("type"), .str (toCL ("rect"))), (toCL ("x"), .num x),
    (toCL ("y"), .num y), (toCL ("width"), .num w), (toCL ("height"), .num h)]

/-- A parsed `group` command object. -/
def groupJson (x y : Int) (children : List Json) : Json :=
  Json.obj [(toCL ("type"), .str (toCL ("group"))), (toCL ("x"), .num x),
    (toCL ("y"), .num y), (toCL ("children"), .arr children)]

/-- A parsed `equation` command object. -/
def eqJson (latex : List Char) (x y fs : Int) : Json :=
  Json.obj [(toCL ("type"), .str (toCL ("equation"))), (toCL ("latex"), .str latex),
    (toCL ("x"), .num x), (toCL ("y"), .num y), (toCL ("fontSize"), .num fs)]

/-- A parsed `text` command object. -/
def textJson (t : List Char) (x y : Int) : Json :=
  Json.obj [(toCL ("type"), .str (toCL ("text"))), (toCL ("text"), .str t),
    (toCL ("x"), .num x), (toCL ("y"), .num y)]

/-! ## Properties of the incremental line split -/

theorem jsSplitNl_eq (s : List Char) :
    jsSplitNl s = (splitInc s).1 ++ [(splitInc s).2] := by
  induction s with
  | nil => rfl
  | cons c cs ih =>
    by_cases hc : c = '\n'
    · simp [jsSplitNl, splitInc, hc, ih]
    · simp only [jsSplitNl, splitInc, if_neg hc]
      cases hA : splitInc cs with
      | mk l r =>
        rw [hA] at ih
        cases l with
        | nil => simp at ih; simp [ih]
        | cons l0 ls0 => simp [ih]

theorem splitInc_append (a b : List Char) :
    splitInc (a ++ b) = mergeSplit (splitInc a) (splitInc b) := by
  induction a with
  | nil =>
    cases hB : splitInc b with
    | mk bl br => cases bl <;> simp [mergeSplit, splitInc, List.nil_append, hB]
  | cons c a' ih =>
    cases hA : splitInc a' with
    | mk al ar =>
      cases hB : splitInc b with
      | mk bl br =>
        rw [hA, hB] at ih
        by_cases hc : c = '\n'
        · cases bl <;>
            simp [List.cons_append, splitInc, if_pos hc, ih, hA, mergeSplit]
        · cases bl with
          | nil =>
            cases al <;>
              simp [List.cons_append, splitInc, if_neg hc, ih, hA, mergeSplit]
          | cons bl0 bls =>
            cases al <;>
              simp [List.cons_append, splitInc, if_neg hc, ih, hA, mergeSplit]

theorem splitInc_no_nl (s : List Char) (h : '\n' ∉ s) : splitInc s = ([], s) := by
  induction s with
  | nil => rfl
  | cons c cs ih =>
    have hc : ¬(c = '\n') := fun he => h (he ▸ List.mem_cons_self c cs)
    have hcs : '\n' ∉ cs := fun hm => h (List.mem_cons_of_mem c hm)
    simp only [splitInc, if_neg hc, ih hcs]

theorem nl_not_mem_splitInc_rest (s : List Char) : '\n' ∉ (splitInc s).2 := by
  induction s with
  | nil => simp [splitInc]
  | cons c cs ih =>
    by_cases hc : c = '\n'
    · simp only [splitInc, if_pos hc]
      exact ih
    · simp only [splitInc, if_neg hc]
      cases hA : splitInc cs with
      | mk l r =>
        rw [hA] at ih
        cases l with
        | nil =>
          simp only
          intro hm
          rcases List.mem_cons.mp hm with he | hm2
          · exact hc he.symm
          · exact ih hm2
        | cons l0 ls0 => simpa using ih

theorem runFrom_cons (buf c : List Char) (cs : List (List Char)) :
    runFrom buf (c :: cs) =
      procLines (splitInc (buf ++ c)).1 ++ runFrom (splitInc (buf ++ c)).2 cs := by
  simp only [runFrom, jsSplitNl_eq, List.dropLast_concat, List.getLastD_concat]

/-! ## Flattening the per-chunk loop when no sentinel occurs -/

theorem linesOut_append (a b : List (List Char)) :
    linesOut (a ++ b) = linesOut a ++ linesOut b := by
  induction a with
  | nil => rfl
  | cons l ls ih => simp [linesOut, ih]

theorem procLines_eq_linesOut (ls : List (List Char))
    (h : ∀ l ∈ ls, ¬ isDoneLine l) : procLines ls = linesOut ls := by
  induction ls with
  | nil => rfl
  | cons l ls ih =>
    have hl := h l (List.mem_cons_self l ls)
    have hls : ∀ l' ∈ ls, ¬ isDoneLine l' := fun l' hm => h l' (List.mem_cons_of_mem l hm)
    by_cases hb : isBlank l
    · simp [procLines, linesOut, lineOut, hb, ih hls]
    · by_cases hd : hasDataHdr l
      · by_cases hdone : l.drop 6 = doneTok
        · exact absurd ⟨by simpa using hb, by simpa using hd, hdone⟩ hl
        · simp only [procLines, linesOut, lineOut, if_neg hb, if_pos hd, if_neg hdone]
          cases hj : jparse (l.drop 6) <;> simp [ih hls]
      · simp [procLines, linesOut, lineOut, hb, hd, ih hls]

theorem runFrom_flat (cs : List (List Char)) (buf : List Char)
    (hbuf : '\n' ∉ buf)
    (h : ∀ l ∈ (splitInc (buf ++ concatAll cs)).1, ¬ isDoneLine l) :
    runFrom buf cs = linesOut (splitInc (buf ++ concatAll cs)).1 := by
  induction cs generalizing buf with
  | nil =>
    rw [show concatAll [] = [] from rfl, List.append_nil, splitInc_no_nl buf hbuf]
    rfl
  | cons c cs' ih =>
    have hassoc : buf ++ concatAll (c :: cs') = (buf ++ c) ++ concatAll cs' := by
      simp [concatAll, List.append_assoc]
    have hdec : splitInc (buf ++ concatAll (c :: cs')) =
        mergeSplit (splitInc (buf ++ c)) (splitInc (concatAll cs')) := by
      rw [hassoc, splitInc_append]
    have hrest : '\n' ∉ (splitInc (buf ++ c)).2 := nl_not_mem_splitInc_rest _
    have hsecond : splitInc ((splitInc (buf ++ c)).2 ++ concatAll cs') =
        mergeSplit (([] : List (List Char)), (splitInc (buf ++ c)).2) (splitInc (concatAll cs')) := by
      rw [splitInc_append, splitInc_no_nl _ hrest]
    have hdecomp : (splitInc (buf ++ concatAll (c :: cs'))).1 =
        (splitInc (buf ++ c)).1 ++ (splitInc ((splitInc (buf ++ c)).2 ++ concatAll cs')).1 := by
      rw [hdec, hsecond]
      cases hB : (splitInc (concatAll cs')).1 <;> simp [mergeSplit, hB]
    rw [runFrom_cons]
    rw [hdecomp] at h ⊢
    have h1 : ∀ l ∈ (splitInc (buf ++ c)).1, ¬ isDoneLine l :=
      fun l hm => h l (List.mem_append_left _ hm)
    have h2 : ∀ l ∈ (splitInc ((splitInc (buf ++ c)).2 ++ concatAll cs')).1, ¬ isDoneLine l :=
      fun l hm => h l (List.mem_append_right _ hm)
    rw [linesOut_append, procLines_eq_linesOut _ h1, ih _ hrest h2]

/-! ## Decoding a response made of well-formed frames -/

theorem splitInc_framesText (ps : List (List Char)) (h : ∀ p ∈ ps, '\n' ∉ p) :
    splitInc (framesText ps) = (ps.map (fun p => dataHdr ++ p), []) := by
  induction ps with
  | nil => rfl
  | cons p ps ih =>
    have hp : '\n' ∉ p := h p (List.mem_cons_self p ps)
    have hdp : '\n' ∉ dataHdr ++ p := by
      intro hm
      rcases List.mem_append.mp hm with h1 | h2
      · exact (by decide : '\n' ∉ dataHdr) h1
      · exact hp h2
    have hshape : framesText (p :: ps) = (dataHdr ++ p) ++ ('\n' :: framesText ps) := by
      simp [framesText, List.append_assoc]
    have hs : splitInc ('\n' :: framesText ps) =
        ([] :: (splitInc (framesText ps)).1, (splitInc (framesText ps)).2) := by
      simp [splitInc]
    rw [hshape, splitInc_append, splitInc_no_nl _ hdp, hs,
      ih (fun q hq => h q (List.mem_cons_of_mem _ hq))]
    simp [mergeSplit]

theorem lineOut_data (p : List Char) (hp : p ≠ doneTok) :
    lineOut (dataHdr ++ p) = (jparse p).toList := by
  have hblank : isBlank (dataHdr ++ p) = false := rfl
  have hhdr : hasDataHdr (dataHdr ++ p) = true := rfl
  have hdrop : (dataHdr ++ p).drop 6 = p := rfl
  simp [lineOut, hblank, hhdr, hdrop, hp]

theorem linesOut_frames (ps : List (List Char)) (h : ∀ p ∈ ps, p ≠ doneTok) :
    linesOut (ps.map (fun p => dataHdr ++ p)) = optJoin ps := by
  induction ps with
  | nil => rfl
  | cons p ps ih =>
    simp only [List.map_cons, linesOut, optJoin,
      lineOut_data p (h p (List.mem_cons_self p ps)),
      ih (fun q hq => h q (List.mem_cons_of_mem _ hq))]

theorem optJoin_eq_filterMap (ps : List (List Char)) :
    optJoin ps = ps.filterMap jparse := by
  induction ps with
  | nil => rfl
  | cons p ps ih => cases hj : jparse p <;> simp [optJoin, List.filterMap_cons, hj, ih]

theorem length_filterMap_jparse (ps : List (List Char))
    (h : ∀ p ∈ ps, (jparse p).isSome = true) :
    (ps.filterMap jparse).length = ps.length := by
  induction ps with
  | nil => rfl
  | cons p ps ih =>
    cases hj : jparse p with
    | none =>
      have := h p (List.mem_cons_self p ps)
      rw [hj] at this
      simp at this
    | some j =>
      simp [List.filterMap_cons, hj, ih (fun q hq => h q (List.mem_cons_of_mem _ hq))]

theorem decodeStream_of_partition (ps chunks : List (List Char))
    (hps : ∀ p ∈ ps, '\n' ∉ p ∧ p ≠ doneTok)
    (hch : concatAll chunks = framesText ps) :
    decodeStream chunks = optJoin ps := by
  have hnodone : ∀ l ∈ (splitInc (([] : List Char) ++ concatAll chunks)).1, ¬ isDoneLine l := by
    rw [List.nil_append, hch, splitInc_framesText ps (fun p hp => (hps p hp).1)]
    intro l hm hd
    simp only [List.mem_map] at hm
    obtain ⟨p, hp, rfl⟩ := hm
    exact (hps p hp).2 (by simpa using hd.2.2)
  have hflat := runFrom_flat chunks [] (by simp) hnodone
  rw [decodeStream, hflat, List.nil_append, hch,
    splitInc_framesText ps (fun p hp => (hps p hp).1)]
  exact linesOut_frames ps (fun p hp => (hps p hp).2)

/-- C1: for every sequence of well-formed `data:` frames (payloads free
of newlines, distinct from the sentinel and accepted by `JSON.parse`),
the decoder emits exactly one Command per frame, and the emitted
sequence for any partition of the text into chunks — byte-by-byte
included — equals the whole-text emission. -/
theorem c1_chunk_invariance (ps chunks : List (List Char))
    (hps : ∀ p ∈ ps, '\n' ∉ p ∧ p ≠ doneTok ∧ (jparse p).isSome = true)
    (hch : concatAll chunks = framesText ps) :
    decodeStream chunks = ps.filterMap jparse ∧
    (decodeStream chunks).length = ps.length ∧
    decodeStream chunks = decodeStream [framesText ps] := by
  have h1 : ∀ p ∈ ps, '\n' ∉ p ∧ p ≠ doneTok :=
    fun p hp => ⟨(hps p hp).1, (hps p hp).2.1⟩
  have hmain := decodeStream_of_partition ps chunks h1 hch
  have hone := decodeStream_of_partition ps [framesText ps] h1 (by simp [concatAll])
  rw [optJoin_eq_filterMap] at hmain hone
  refine ⟨hmain, ?_, ?_⟩
  · rw [hmain]
    exact length_filterMap_jparse ps (fun p hp => (hps p hp).2.2)
  · rw [hmain, hone]

/-- Witness for C1 at a concrete frame delivered in four chunks split
inside the prefix, the payload and before the newline. -/
theorem c1_chunk_invariance_witness :
    decodeStream [toCL ("d"), toCL ("ata: \x7b\"ty"), toCL ("pe\":\"rect\",\"x\":1\x7d"), toCL ("\n")] =
      [toCL ("\x7b\"type\":\"rect\",\"x\":1\x7d")].filterMap jparse ∧
    (decodeStream [toCL ("d"), toCL ("ata: \x7b\"ty"), toCL ("pe\":\"rect\",\"x\":1\x7d"), toCL ("\n")]).length =
      [toCL ("\x7b\"type\":\"rect\",\"x\":1\x7d")].length ∧
    decodeStream [toCL ("d"), toCL ("ata: \x7b\"ty"), toCL ("pe\":\"rect\",\"x\":1\x7d"), toCL ("\n")] =
      decodeStream [framesText [toCL ("\x7b\"type\":\"rect\",\"x\":1\x7d")]] :=
  c1_chunk_invariance [toCL ("\x7b\"type\":\"rect\",\"x\":1\x7d")]
    [toCL ("d"), toCL ("ata: \x7b\"ty"), toCL ("pe\":\"rect\",\"x\":1\x7d"), toCL ("\n")]
    (by decide) (by decide)

/-- C3: evaluation of the decoder at a stream whose first chunk carries
only the sentinel frame and whose second chunk carries a well-formed
frame.  The `break` on `[DONE]` abandons only the remaining lines of the
chunk being processed, so the frame arriving in the next chunk is still
decoded and emitted — one Command is emitted after the sentinel,
contradicting the claim that the sentinel ends the emitted sequence.
When the very same text arrives as a single chunk, the frame after the
sentinel is skipped and nothing is emitted. -/
theorem c3_sentinel_not_terminal :
    decodeStream [toCL ("data: [DONE]\n"), toCL ("data: \x7b\"type\":\"rect\"\x7d\n")] =
      [Json.obj [(toCL ("type"), Json.str (toCL ("rect")))]] ∧
    decodeStream [toCL ("data: [DONE]\ndata: \x7b\"type\":\"rect\"\x7d\n")] = [] ∧
    (decodeStream [toCL ("data: [DONE]\n"), toCL ("data: \x7b\"type\":\"rect\"\x7d\n")]).length = 1 :=
  ⟨rfl, rfl, rfl⟩

/-- C4 counterexample: the payload `"abc"` parses as a JSON value that is
not an object, yet the decoder emits it as a Command — the claim that a
non-object payload is ignored is false of the code, which passes any
successfully parsed payload to `onCommand` without an object or `type`
check. -/
theorem c4_counterexample :
    jparse (toCL ("\"abc\"")) = some (Json.str (toCL ("abc"))) ∧
    decodeStream [framesText [toCL ("\"abc\"")]] = [Json.str (toCL ("abc"))] ∧
    (decodeStream [framesText [toCL ("\"abc\"")]]).length = 1 :=
  ⟨rfl, rfl, rfl⟩

/-- C4 (amended): in frame mode the decoder emits a Command exactly when
the payload parses as JSON — any JSON value, with no object or `type`
check — and a payload that fails to parse is silently discarded while
decoding continues with the following frames. -/
theorem c4_amended (p q : List Char)
    (hpn : '\n' ∉ p) (hqn : '\n' ∉ q)
    (hpd : p ≠ doneTok) (hqd : q ≠ doneTok) :
    decodeStream [framesText [p, q]] = (jparse p).toList ++ (jparse q).toList ∧
    decodeStream [framesText [p]] = (jparse p).toList := by
  have h2 : ∀ r ∈ [p, q], '\n' ∉ r ∧ r ≠ doneTok := by
    intro r hr
    rcases List.mem_cons.mp hr with rfl | hr2
    · exact ⟨hpn, hpd⟩
    · rcases List.mem_cons.mp hr2 with rfl | hr3
      · exact ⟨hqn, hqd⟩
      · simp at hr3
  have h1 : ∀ r ∈ [p], '\n' ∉ r ∧ r ≠ doneTok := by
    intro r hr
    rcases List.mem_cons.mp hr with rfl | hr2
    · exact ⟨hpn, hpd⟩
    · simp at hr2
  constructor
  · rw [decodeStream_of_partition [p, q] _ h2 (by simp [concatAll])]
    simp [optJoin]
  · rw [decodeStream_of_partition [p] _ h1 (by simp [concatAll])]
    simp [optJoin]

/-- Witness for C4 (amended): a malformed payload emits nothing and the
well-formed frame after it is still decoded. -/
theorem c4_amended_witness :
    decodeStream [framesText [toCL ("\x7bbad"), toCL ("\"abc\"")]] =
      (jparse (toCL ("\x7bbad"))).toList ++ (jparse (toCL ("\"abc\""))).toList ∧
    decodeStream [framesText [toCL ("\x7bbad")]] = (jparse (toCL ("\x7bbad"))).toList :=
  c4_amended (toCL ("\x7bbad")) (toCL ("\"abc\"")) (by decide) (by decide) (by decide) (by decide)

/-! ## The loose recovery scan equals the all-substrings specification -/

theorem nnAt_succ (c : Char) (t : List Char) (i : Nat) :
    nnAt (c :: t) (i + 1) = nnAt t i := by
  simp [nnAt, List.drop_succ_cons]

theorem specMatches_cons (c : Char) (t : List Char) :
    specMatches (c :: t) = (nnAt (c :: t) 0).toList ++ specMatches t := by
  have hcomp : nnAt (c :: t) ∘ Nat.succ = nnAt t :=
    funext fun i => nnAt_succ c t i
  unfold specMatches
  rw [show (c :: t).length = t.length + 1 from rfl, List.range_succ_eq_map,
    List.filterMap_cons, List.filterMap_map, hcomp]
  cases h0 : nnAt (c :: t) 0 <;> simp

theorem scanM_eq_specMatches (s : List Char) : scanM s = specMatches s := by
  induction s with
  | nil => rfl
  | cons c rest ih =>
    rw [specMatches_cons]
    by_cases hc : c = '\x7b'
    · subst hc
      cases hsp : spanNB rest with
      | mk run rBr =>
        cases rBr with
        | nil => simp [scanM, nnAt, List.drop_zero, hsp, ih]
        | cons b bs =>
          by_cases hb : b = '\x7d'
          · subst hb
            simp [scanM, nnAt, List.drop_zero, hsp, ih]
          · simp [scanM, nnAt, List.drop_zero, hsp, hb, ih]
    · simp [scanM, nnAt, List.drop_zero, hc, ih]

theorem serverStep_clears (cb t : List Char)
    (h : 0 < ((serverStep cb t).1).length) : (serverStep cb t).2 = [] := by
  by_cases hc : (extractCommands (cb ++ t)).length > 0
  · simp [serverStep, hc]
  · exfalso
    simp [serverStep, hc] at h

/-- C5: the loose-recovery extractor returns, in left-to-right order of
occurrence, exactly the bracket-balanced brace-free-interior substrings
of the accumulated blob that parse as JSON with a truthy `type` field
(`specMatches` enumerates those substrings by position and `cmdOf` is
the parse-and-check filter); and whenever it finds at least one command
the endpoint clears the whole accumulated blob. -/
theorem c5_loose_recovery :
    (∀ s, extractCommands s = (specMatches s).filterMap cmdOf) ∧
    (∀ cb t, 0 < ((serverStep cb t).1).length → (serverStep cb t).2 = []) :=
  ⟨fun s => by rw [extractCommands, scanM_eq_specMatches],
   fun cb t h => serverStep_clears cb t h⟩

/-- Witness for C5 at a blob holding one command with a truthy type and
one brace-balanced substring whose `type` is missing. -/
theorem c5_loose_recovery_witness :
    extractCommands (toCL ("\x7b\"type\":\"rect\"\x7d\x7b\"x\":1\x7d")) =
      (specMatches (toCL ("\x7b\"type\":\"rect\"\x7d\x7b\"x\":1\x7d"))).filterMap cmdOf ∧
    (serverStep [] (toCL ("\x7b\"type\":\"rect\"\x7d\x7b\"x\":1\x7d"))).2 = [] :=
  ⟨c5_loose_recovery.1 (toCL ("\x7b\"type\":\"rect\"\x7d\x7b\"x\":1\x7d")),
   c5_loose_recovery.2 [] (toCL ("\x7b\"type\":\"rect\"\x7d\x7b\"x\":1\x7d")) (by decide)⟩

/-- C10: whenever the streaming endpoint extracts at least one complete
command from the accumulated buffer, the whole buffer is reset to the
empty string, including any trailing prefix of a not-yet-complete JSON
object; consequently a command whose text straddles the reset is lost:
in the concrete run the first delta ends mid-way through a `text`
command, the reset discards that prefix, and only the `rect` command is
ever emitted. -/
theorem c10_buffer_reset :
    (∀ cb t, 0 < ((serverStep cb t).1).length → (serverStep cb t).2 = []) ∧
    serverRun [] [toCL ("\x7b\"type\":\"rect\"\x7d\x7b\"type\":\"te"), toCL ("xt\",\"text\":\"hi\"\x7d")] =
      [Json.obj [(toCL ("type"), Json.str (toCL ("rect")))]] ∧
    (serverRun [] [toCL ("\x7b\"type\":\"rect\"\x7d\x7b\"type\":\"te"), toCL ("xt\",\"text\":\"hi\"\x7d")]).length = 1 :=
  ⟨fun cb t h => serverStep_clears cb t h, rfl, rfl⟩

/-- Witness for C10: the buffer is cleared at a delta that also leaves a
dangling half-command behind. -/
theorem c10_buffer_reset_witness :
    0 < ((serverStep [] (toCL ("\x7b\"type\":\"line\"\x7d\x7b\"da"))).1).length ∧
    (serverStep [] (toCL ("\x7b\"type\":\"line\"\x7d\x7b\"da"))).2 = [] :=
  ⟨by decide, c10_buffer_reset.1 [] (toCL ("\x7b\"type\":\"line\"\x7d\x7b\"da")) (by decide)⟩

/-! ## Math span detection -/

theorem findClose_no_dollar (r : List Char) (h : '$' ∉ r) : findClose r = none := by
  induction r with
  | nil => rfl
  | cons c cs ih =>
    have hc : ¬(c = '$') := fun he => h (he ▸ List.mem_cons_self c cs)
    have hcs : '$' ∉ cs := fun hm => h (List.mem_cons_of_mem c hm)
    simp [findClose, hc, ih hcs]

theorem detectAux_no_dollar (fuel i : Nat) (s : List Char) (h : '$' ∉ s) :
    detectAux fuel i s = [] := by
  induction fuel generalizing i s with
  | zero => rfl
  | succ f ih =>
    cases s with
    | nil => rfl
    | cons c r =>
      have hc : ¬(c = '$') := fun he => h (he ▸ List.mem_cons_self c r)
      have hr : '$' ∉ r := fun hm => h (List.mem_cons_of_mem c hm)
      simp [detectAux, hc, ih _ r hr]

theorem detectAux_one_dollar (fuel i : Nat) (pre suf : List Char)
    (hpre : '$' ∉ pre) (hsuf : '$' ∉ suf) :
    detectAux fuel i (pre ++ '$' :: suf) = [] := by
  induction fuel generalizing i pre with
  | zero => rfl
  | succ f ih =>
    cases pre with
    | nil => simp [detectAux, findClose_no_dollar suf hsuf]
    | cons c cs =>
      have hc : ¬(c = '$') := fun he => hpre (he ▸ List.mem_cons_self c cs)
      have hcs : '$' ∉ cs := fun hm => hpre (List.mem_cons_of_mem c hm)
      simp [detectAux, hc, ih _ cs hcs]

/-- C7: the Math Span Detector on `solve $x^2$ now` returns exactly one
span whose content is `x^2` and whose half-open offsets 6..11 delimit
the delimited substring; on any text without a `$` delimiter it returns
the empty list; and on any text with a single unmatched delimiter it
returns no spans (and, being a total function, cannot crash). -/
theorem c7_detect_latex :
    detectLatex (toCL ("solve $x^2$ now")) = [⟨6, 11, toCL ("x^2")⟩] ∧
    (∀ s, '$' ∉ s → detectLatex s = []) ∧
    (∀ pre suf, '$' ∉ pre → '$' ∉ suf → detectLatex (pre ++ '$' :: suf) = []) :=
  ⟨rfl,
   fun s hs => detectAux_no_dollar _ _ s hs,
   fun pre suf h1 h2 => detectAux_one_dollar _ _ pre suf h1 h2⟩

/-- Witness for C7 on delimiter-free text and on text with one unmatched
delimiter. -/
theorem c7_detect_latex_witness :
    detectLatex (toCL ("hello")) = [] ∧
    detectLatex (toCL ("a ") ++ '$' :: toCL ("b")) = [] :=
  ⟨c7_detect_latex.2.1 (toCL ("hello")) (by decide),
   c7_detect_latex.2.2 (toCL ("a ")) (toCL ("b")) (by decide) (by decide)⟩

/-! ## Interpreter claims -/

/-- C6: interpreting a `group` whose children contain a `rect` renders
the child offset by the group's own position: in general the effective
absolute rectangle of `group (gx,gy) [rect (rx,ry,w,h)]` is
`(gx+rx, gy+ry, w, h)`, and at the claim's instance a group at (100,50)
containing a rect at (0,0,40,40) yields the absolute rectangle
(100,50,40,40). -/
theorem c6_group_offset :
    (∀ (tex : List Char → TexOut) (fuel : Nat) (gx gy rx ry w h : Int),
      renderCommand tex (fuel + 2) (groupJson gx gy [rectJson rx ry w h]) =
        some (Drawable.group gx gy [Drawable.rect rx ry w h]) ∧
      absRects 0 0 (Drawable.group gx gy [Drawable.rect rx ry w h]) =
        [(gx + rx, gy + ry, w, h)]) ∧
    renderCommand (fun _ => TexOut.pending) 2 (groupJson 100 50 [rectJson 0 0 40 40]) =
      some (Drawable.group 100 50 [Drawable.rect 0 0 40 40]) ∧
    absRects 0 0 (Drawable.group 100 50 [Drawable.rect 0 0 40 40]) = [(100, 50, 40, 40)] := by
  refine ⟨fun tex fuel gx gy rx ry w h => ⟨rfl, ?_⟩, rfl, by decide⟩
  simp [absRects, absRectsList]

/-- C8: for every markup string on which the typesetting oracle fails,
interpreting an `equation` command for it produces the plain-text italic
fallback drawable carrying the original markup string (the interpreter
being a total function, no exception propagates), and the drawables of
the commands before and after it are unaffected. -/
theorem c8_equation_fallback (tex : List Char → TexOut) (fuel : Nat)
    (pre post : List Json) (l : List Char) (x y fs : Int)
    (hfail : tex l = TexOut.failed) (hl : l ≠ []) :
    renderAll tex (fuel + 1) (pre ++ eqJson l x y fs :: post) =
      renderAll tex (fuel + 1) pre ++
        Drawable.text x y l (if fs = 0 then 18 else fs) true ::
        renderAll tex (fuel + 1) post := by
  have hj : jsOr (some l) none = l := by simp [jsOr, hl]
  have hcmd : renderCommand tex (fuel + 1) (eqJson l x y fs) =
      some (Drawable.text x y l (if fs = 0 then 18 else fs) true) := by
    calc renderCommand tex (fuel + 1) (eqJson l x y fs)
        = some (equationRenderer tex (jsOr (some l) none) x y (if fs = 0 then 18 else fs)) := rfl
      _ = some (equationRenderer tex l x y (if fs = 0 then 18 else fs)) := by rw [hj]
      _ = some (Drawable.text x y l (if fs = 0 then 18 else fs) true) := by
          simp [equationRenderer, hfail]
  simp [renderAll, List.filterMap_append, List.filterMap_cons, hcmd]

/-- Witness for C8 with an always-failing typesetting oracle. -/
theorem c8_equation_fallback_witness :
    renderAll (fun _ => TexOut.failed) 1 ([] ++ eqJson (toCL ("x^")) 1 2 3 :: []) =
      renderAll (fun _ => TexOut.failed) 1 [] ++
        Drawable.text 1 2 (toCL ("x^")) (if (3 : Int) = 0 then 18 else 3) true ::
        renderAll (fun _ => TexOut.failed) 1 [] :=
  c8_equation_fallback (fun _ => TexOut.failed) 0 [] [] (toCL ("x^")) 1 2 3 rfl (by decide)

/-- C9: a command whose `type` is not one of the five recognized
variants produces no drawable and raises no error, and interpreting a
command list around it simply drops it, the surrounding commands being
interpreted in order. -/
theorem c9_unknown_type (tex : List Char → TexOut) (fuel : Nat) (c : Json)
    (pre post : List Json)
    (h : ((typeTag c).all fun t => !recognizedType t) = true) :
    renderCommand tex (fuel + 1) c = none ∧
    renderAll tex (fuel + 1) (pre ++ c :: post) =
      renderAll tex (fuel + 1) pre ++ renderAll tex (fuel + 1) post := by
  have hnone : renderCommand tex (fuel + 1) c = none := by
    cases htc : typeTag c with
    | none => simp [renderCommand, htc]
    | some t =>
      rw [htc] at h
      simp [Option.all, recognizedType] at h
      obtain ⟨⟨⟨⟨h1, h2⟩, h3⟩, h4⟩, h5⟩ := h
      simp [renderCommand, htc, h1, h2, h3, h4, h5]
  exact ⟨hnone, by simp [renderAll, List.filterMap_append, List.filterMap_cons, hnone]⟩

/-- Witness for C9 at the claim's `sparkle` command. -/
theorem c9_unknown_type_witness :
    renderCommand (fun _ => TexOut.pending) 1
        (Json.obj [(toCL ("type"), Json.str (toCL ("sparkle")))]) = none ∧
    renderAll (fun _ => TexOut.pending) 1
        ([rectJson 1 2 3 4] ++ Json.obj [(toCL ("type"), Json.str (toCL ("sparkle")))] :: [rectJson 5 6 7 8]) =
      renderAll (fun _ => TexOut.pending) 1 [rectJson 1 2 3 4] ++
        renderAll (fun _ => TexOut.pending) 1 [rectJson 5 6 7 8] :=
  c9_unknown_type (fun _ => TexOut.pending) 0
    (Json.obj [(toCL ("type"), Json.str (toCL ("sparkle")))])
    [rectJson 1 2 3 4] [rectJson 5 6 7 8] (by decide)

/-- C2: evaluation of the `handleGenerate` state updates on a trace
where a new prompt is issued while a delivery of the previous request is
still pending.  The old request starts (reset), applies its first
equation, the new prompt starts (reset), then the abandoned request's
still-pending second delivery resolves, and finally the new request's
own command is applied.  Because the source carries no request identity
or stale-result guard, the abandoned request's equation `b` survives in
the final canvas next to the new prompt's command — the final state is
not composed solely of the new prompt's commands. -/
theorem c2_stale_applied :
    appRun [GenEvent.newPrompt,
            GenEvent.deliver 0 (eqJson (toCL ("a")) 1 2 20),
            GenEvent.newPrompt,
            GenEvent.deliver 1 (eqJson (toCL ("b")) 5 6 20),
            GenEvent.deliver 0 (textJson (toCL ("hi")) 3 4)] =
      { commands := [textJson (toCL ("hi")) 3 4]
        equations := [{ id := toCL ("eq-1"), latex := toCL ("b"), x := 5, y := 6, fontSize := 20 }] } ∧
    (appRun [GenEvent.newPrompt,
             GenEvent.deliver 0 (eqJson (toCL ("a")) 1 2 20),
             GenEvent.newPrompt,
             GenEvent.deliver 1 (eqJson (toCL ("b")) 5 6 20),
             GenEvent.deliver 0 (textJson (toCL ("hi")) 3 4)]).equations =
      [eqEntryOf 1 (eqJson (toCL ("b")) 5 6 20)] :=
  ⟨rfl, rfl⟩
